import Mathlib

/-!
A shallow embedding of KeePassXC's Bitwarden JSON importer
(`src/format/Bitwarden.cpp`) and proofs about it.

The embedding models:
- JSON values (`JValue`) together with the Qt `QVariant`/`QJsonValue`
  coercions the source uses (`toString`, `toBool`, `toMap`, `toList`,
  `toULongLong`, `toInt`, `toObject`);
- the entry attribute set (`EntryAttributes`): an ordered list of
  named attributes with in-place overwrite on an existing key and
  append on a fresh key, initialised with the five default keys;
- `readItem`: one vault item to one `Entry` plus its folder id;
- `writeVaultToDatabase`: folders to groups, items to entries attached
  to the group resolved from the folder-id table (root on a miss);
- `BitwardenReader::convert`: filesystem access is abstracted into a
  `FileAccess` value (missing / unreadable / readable contents).

Randomness (`QUuid::createUuid().toString().mid(1, 5)` used to
disambiguate colliding attribute names) is injected as a list of
suffix strings consumed one per collision.
-/

/-- JSON values; numbers are modelled as integers (the timestamps and
field types the importer reads are integral). -/
inductive JValue where
  | null : JValue
  | bool (b : Bool) : JValue
  | num (n : Int) : JValue
  | str (s : String) : JValue
  | arr (elems : List JValue) : JValue
  | obj (fields : List (String × JValue)) : JValue

/-- Key lookup on a JSON object (`QJsonObject::value` / `QVariantMap::value`);
missing keys and non-objects yield `null` (Qt: an invalid variant). -/
def jValue (v : JValue) (k : String) : JValue :=
  match v with
  | .obj kvs => (kvs.lookup k).getD .null
  | _ => .null

/-- `contains` on a JSON object / variant map; false on non-objects. -/
def jContains (v : JValue) (k : String) : Bool :=
  match v with
  | .obj kvs => kvs.any (fun kv => kv.fst == k)
  | _ => false

/-- `QJsonValue::toObject`: non-objects coerce to the empty object. -/
def jObjOf : JValue → JValue
  | .obj kvs => .obj kvs
  | _ => .obj []

/-- `QVariant::toString`: strings verbatim, numbers in decimal,
booleans as `true`/`false`, everything else the empty string. -/
def vStr : JValue → String
  | .str s => s
  | .num n => toString n
  | .bool b => if b then "true" else "false"
  | _ => ""

/-- `QVariant::toBool`: a string is true unless empty, `"0"` or `"false"`
(lower-cased); a number is true iff nonzero. -/
def vBool : JValue → Bool
  | .bool b => b
  | .num n => n != 0
  | .str s => !(s.toLower.isEmpty || s.toLower == "0" || s.toLower == "false")
  | _ => false

/-- `QVariant::toList` / `QJsonValue::toArray`: non-arrays coerce to `[]`. -/
def vList : JValue → List JValue
  | .arr xs => xs
  | _ => []

/-- `QVariant::toULongLong` on the values the importer reads; a negative
integer wraps modulo `2 ^ 64`, a digit string parses, anything else is 0. -/
def vNat : JValue → Nat
  | .num n => (n % (2 ^ 64)).toNat
  | .str s => s.toNat?.getD 0
  | .bool b => if b then 1 else 0
  | _ => 0

/-- `QVariant::toInt` on the values the importer reads. -/
def vInt : JValue → Int
  | .num n => n
  | .str s => s.toInt?.getD 0
  | .bool b => if b then 1 else 0
  | _ => 0

/-- One attribute of an entry's `EntryAttributes`: name, value and the
protected (sensitive) flag. -/
structure Attr where
  name : String
  value : String
  protect : Bool
deriving Repr, DecidableEq

/-- `EntryAttributes::hasKey`. -/
def hasKey (attrs : List Attr) (k : String) : Bool :=
  attrs.any (fun a => a.name == k)

/-- `EntryAttributes::set`: overwrite value and protection in place when
the key exists (keys are unique in the backing `QMap`, so updating the
first occurrence is updating the occurrence), append a new attribute
otherwise. -/
def setAttr : List Attr → String → String → Bool → List Attr
  | [], k, v, p => [⟨k, v, p⟩]
  | a :: rest, k, v, p =>
    if a.name == k then { a with value := v, protect := p } :: rest
    else a :: setAttr rest k v p

/-- `EntryAttributes::value`: the value stored under a key, `""` when absent. -/
def getAttr (attrs : List Attr) (k : String) : String :=
  match attrs.find? (fun a => a.name == k) with
  | some a => a.value
  | none => ""

/-- The five default attribute keys every fresh `EntryAttributes` holds. -/
def defaultAttributes : List Attr :=
  [⟨"Title", "", false⟩, ⟨"UserName", "", false⟩, ⟨"Password", "", false⟩,
   ⟨"URL", "", false⟩, ⟨"Notes", "", false⟩]

/-- Entry time info: the three fields the importer sets, as epoch seconds. -/
structure TimeInfo where
  creationTime : Nat
  lastModificationTime : Nat
  lastAccessTime : Nat
deriving Repr, DecidableEq

/-- An entry; title/username/password/url/notes live inside `attributes`
under the default keys, exactly as in `EntryAttributes`. -/
structure Entry where
  attributes : List Attr
  tags : List String
  totp : Option String
  history : List Nat
  timeInfo : TimeInfo
deriving Repr, DecidableEq

/-- A freshly constructed `Entry`. -/
def newEntry : Entry :=
  { attributes := defaultAttributes, tags := [], totp := none,
    history := [], timeInfo := ⟨0, 0, 0⟩ }

def Entry.url (e : Entry) : String := getAttr e.attributes "URL"

def Entry.setTitle (e : Entry) (s : String) : Entry :=
  { e with attributes := setAttr e.attributes "Title" s false }

def Entry.setNotes (e : Entry) (s : String) : Entry :=
  { e with attributes := setAttr e.attributes "Notes" s false }

def Entry.setUsername (e : Entry) (s : String) : Entry :=
  { e with attributes := setAttr e.attributes "UserName" s false }

def Entry.setPassword (e : Entry) (s : String) : Entry :=
  { e with attributes := setAttr e.attributes "Password" s false }

def Entry.setUrl (e : Entry) (s : String) : Entry :=
  { e with attributes := setAttr e.attributes "URL" s false }

/-- `Entry::addTag`: append a tag not already present. -/
def Entry.addTag (e : Entry) (s : String) : Entry :=
  if s ∈ e.tags then e else { e with tags := e.tags ++ [s] }

/-- `Entry::removeHistoryItems`: drop every listed item from the history. -/
def removeHistoryItems (hist toRemove : List Nat) : List Nat :=
  hist.filter (fun h => !(toRemove.contains h))

/-- Decimal rendering, fuel-structured so it evaluates; the fuel is
always sufficient since `n / 10 < n`. -/
def decReprAux : Nat → Nat → String
  | 0, _ => ""
  | fuel + 1, n =>
    if n < 10 then String.mk [Nat.digitChar n]
    else decReprAux fuel (n / 10) ++ String.mk [Nat.digitChar (n % 10)]

/-- Decimal rendering of a natural number, the formatting
`QString("...%1").arg(i)` performs on an `int`. -/
def decRepr (n : Nat) : String := decReprAux (n + 1) n

/-- The name of the `i`-th overflow URL attribute, `KP2A_URL_<i>`. -/
def kpName (i : Nat) : String := "KP2A_URL_" ++ decRepr i

/-- The uri string of one element of a `login.uris` list:
`urlObj.toJsonObject().value("uri").toString()`. -/
def uriStr (u : JValue) : String := vStr (jValue u "uri")

/-- The loop over `login.uris`: while the entry's URL is still empty each
uri lands in the primary URL slot; once it is non-empty every further uri
is stored as attribute `KP2A_URL_<i>`, `i` counting overflow uris from 1. -/
def processUris : Entry → Nat → List JValue → Entry
  | e, _, [] => e
  | e, i, u :: rest =>
    let url := uriStr u
    if e.url == "" then
      processUris (e.setUrl url) i rest
    else
      processUris { e with attributes := setAttr e.attributes (kpName i) url false } (i + 1) rest

/-- The state of the entry after title/notes/favorite and the login
credentials/totp, just before the `uris` loop. -/
def entryAfterLogin (item : JValue) : Entry :=
  let e := (newEntry.setTitle (vStr (jValue item "name"))).setNotes (vStr (jValue item "notes"))
  let e := if vBool (jValue item "favorite") then e.addTag "Favorite" else e
  if jContains item "login" then
    let login := jValue item "login"
    let e := e.setUsername (vStr (jValue login "username"))
    let e := e.setPassword (vStr (jValue login "password"))
    if jContains login "totp" then { e with totp := some (vStr (jValue login "totp")) } else e
  else e

/-- The loop over the `fields` list: a field whose name already exists on
the entry is renamed by appending `_` and a fresh random 5-character
suffix (modelled by the `sufs` stream, consumed one per collision);
`type == 1` marks the attribute protected. -/
def processFields : List Attr → List JValue → List String → List Attr
  | attrs, [], _ => attrs
  | attrs, f :: rest, sufs =>
    let name0 := vStr (jValue f "name")
    let value := vStr (jValue f "value")
    let ty := vInt (jValue f "type")
    if hasKey attrs name0 then
      processFields (setAttr attrs (name0 ++ "_" ++ sufs.headD "") value (ty == 1)) rest sufs.tail
    else
      processFields (setAttr attrs name0 value (ty == 1)) rest sufs

/-- Decidable check that each random suffix consumed while processing the
`fields` list yields a name that is not already a key at the moment it is
used (what fresh `QUuid`-derived suffixes deliver with overwhelming
probability). -/
def goodSuffixes : List Attr → List JValue → List String → Bool
  | _, [], _ => true
  | attrs, f :: rest, sufs =>
    let name0 := vStr (jValue f "name")
    let value := vStr (jValue f "value")
    let ty := vInt (jValue f "type")
    if hasKey attrs name0 then
      !(hasKey attrs (name0 ++ "_" ++ sufs.headD "")) &&
        goodSuffixes (setAttr attrs (name0 ++ "_" ++ sufs.headD "") value (ty == 1)) rest sufs.tail
    else
      goodSuffixes (setAttr attrs name0 value (ty == 1)) rest sufs

/-- The multi-line address composed from the `identity` sub-object; note
the source reads the key `postalcode` in all-lowercase. -/
def identityAddress (item : JValue) : String :=
  let idm := jValue item "identity"
  vStr (jValue idm "address1") ++ "\n" ++ vStr (jValue idm "city") ++ ", "
    ++ vStr (jValue idm "state") ++ " " ++ vStr (jValue idm "postalcode") ++ "\n"
    ++ vStr (jValue idm "country")

/-- `readItem` up to and including the `identity` block (everything before
the `fields` loop), returning the entry and the extracted folder id. -/
def readItemPre (item : JValue) : Entry × String :=
  let folderId := vStr (jValue item "folderId")
  let e := entryAfterLogin item
  let e :=
    if jContains item "login" then
      processUris e 1 (vList (jValue (jValue item "login") "uris"))
    else e
  let e :=
    if jContains item "identity" then
      { e with attributes := setAttr e.attributes "identity_address" (identityAddress item) false }
    else e
  (e, folderId)

/-- `readItem`: one vault item to an entry plus its folder id; `sufs`
injects the random suffixes used to disambiguate colliding field names. -/
def readItem (item : JValue) (sufs : List String) : Entry × String :=
  let pre := readItemPre item
  let e := pre.fst
  let e := { e with attributes := processFields e.attributes (vList (jValue item "fields")) sufs }
  let e := { e with history := removeHistoryItems e.history e.history }
  let createdTime := vNat (jValue item "createdAt")
  let modifiedTime := vNat (jValue item "updatedAt")
  let e := { e with timeInfo := { creationTime := createdTime,
                                  lastModificationTime := modifiedTime,
                                  lastAccessTime := modifiedTime } }
  (e, pre.snd)

/-- A non-root group produced from one folder. -/
structure GroupM where
  name : String
  entries : List Entry
deriving Repr, DecidableEq

/-- The database as far as this importer populates it: entries attached
directly to the root group, and the folder-derived child groups in folder
order. -/
structure DatabaseM where
  rootEntries : List Entry
  childGroups : List GroupM
deriving Repr, DecidableEq

/-- `QMap::insert`: replace the value in place when the key exists,
otherwise add the binding. -/
def qmapInsert (m : List (String × Nat)) (k : String) (v : Nat) : List (String × Nat) :=
  match m with
  | [] => [(k, v)]
  | (k', v') :: rest => if k' == k then (k', v) :: rest else (k', v') :: qmapInsert rest k v

/-- Build the folder-id map: folder `g` (0-based creation order) is
registered under `folder.toObject().value("id").toString()`, later
folders overwriting earlier ones with the same id. -/
def buildFolderMapAux (m : List (String × Nat)) (g : Nat) : List JValue → List (String × Nat)
  | [] => m
  | f :: rest => buildFolderMapAux (qmapInsert m (vStr (jValue (jObjOf f) "id")) g) (g + 1) rest

def buildFolderMap (folders : List JValue) : List (String × Nat) :=
  buildFolderMapAux [] 0 folders

/-- Append an entry to the `g`-th child group (`entry->setGroup`). -/
def addToGroup : List GroupM → Nat → Entry → List GroupM
  | [], _, _ => []
  | gr :: rest, 0, e => { gr with entries := gr.entries ++ [e] } :: rest
  | gr :: rest, n + 1, e => gr :: addToGroup rest n e

/-- The loop over `items`: read each item and attach its entry to the
group found in the folder map, the root group when the id is unknown.
`j` indexes the item so each gets its own suffix stream. -/
def attachAll (fm : List (String × Nat)) (sufs : Nat → List String) :
    List JValue → Nat → DatabaseM → DatabaseM
  | [], _, db => db
  | it :: rest, j, db =>
    let r := readItem (jObjOf it) (sufs j)
    let db :=
      match fm.lookup r.snd with
      | some g => { db with childGroups := addToGroup db.childGroups g r.fst }
      | none => { db with rootEntries := db.rootEntries ++ [r.fst] }
    attachAll fm sufs rest (j + 1) db

/-- `writeVaultToDatabase`: early-out when `folders` or `items` is
missing; otherwise create one group per folder (named after it, parented
to the root) and attach every item's entry. -/
def writeVaultToDatabase (vault : JValue) (sufs : Nat → List String) : DatabaseM :=
  if jContains vault "folders" && jContains vault "items" then
    let folders := vList (jValue vault "folders")
    let groups := folders.map
      (fun f => ({ name := vStr (jValue (jObjOf f) "name"), entries := [] } : GroupM))
    attachAll (buildFolderMap folders) sufs (vList (jValue vault "items")) 0
      { rootEntries := [], childGroups := groups }
  else
    { rootEntries := [], childGroups := [] }

/-- The filesystem as `BitwardenReader::convert` observes it: the path is
missing, or the file exists but cannot be opened, or it is readable and
its bytes parse to a JSON document (`none` when `QJsonDocument::fromJson`
fails). -/
inductive FileAccess where
  | missing : FileAccess
  | unreadable (reason : String) : FileAccess
  | readable (doc : Option JValue) : FileAccess

/-- `QJsonDocument::object`: the parsed document when it is an object,
otherwise the empty object (parse failures and non-object documents). -/
def jsonObject : Option JValue → JValue
  | some (.obj kvs) => .obj kvs
  | _ => .obj []

/-- `BitwardenReader::convert`: the returned database (none on failure)
paired with the error string (`m_error` after the call, empty on success). -/
def convert (fs : FileAccess) (sufs : Nat → List String) : Option DatabaseM × String :=
  match fs with
  | .missing => (none, "File does not exist.")
  | .unreadable reason => (none, "Cannot open file: " ++ reason)
  | .readable doc => (some (writeVaultToDatabase (jsonObject doc) sufs), "")

/-- The total number of entries attached anywhere in the database. -/
def totalEntries (db : DatabaseM) : Nat :=
  db.rootEntries.length + (db.childGroups.map (fun g => g.entries.length)).sum

/-- The entries of the items (from index `j` on) whose folder id resolves
to the given target (`none` = the root group), in item order. -/
def entriesResolvedTo (fm : List (String × Nat)) (sufs : Nat → List String)
    (tgt : Option Nat) : List JValue → Nat → List Entry
  | [], _ => []
  | it :: rest, j =>
    let r := readItem (jObjOf it) (sufs j)
    if fm.lookup r.snd = tgt then r.fst :: entriesResolvedTo fm sufs tgt rest (j + 1)
    else entriesResolvedTo fm sufs tgt rest (j + 1)

/-- The strings of a `login.uris` list. -/
def uriStrings (us : List JValue) : List String := us.map uriStr

/-- The overflow attributes the uri loop appends when the primary URL is
already non-empty on entry: one `KP2A_URL_<k>` per uri, `k` counting from `i`. -/
def overflowAttrs : Nat → List JValue → List Attr
  | _, [] => []
  | i, u :: rest => ⟨kpName i, uriStr u, false⟩ :: overflowAttrs (i + 1) rest

/-- How many uris of the list land in overflow attributes when the loop
starts with the given primary URL. -/
def overflowCount (url : String) (ss : List String) : Nat :=
  if url == "" then ss.length - (ss.takeWhile (fun s => s == "")).length - 1
  else ss.length

/-- Freshness of the suffix stream for a whole item: every disambiguated
field name is new at the moment it is inserted. -/
def suffixesOk (item : JValue) (sufs : List String) : Bool :=
  goodSuffixes (readItemPre item).fst.attributes (vList (jValue item "fields")) sufs

/-- The names of the five default attributes. -/
def defaultNames : List String := ["Title", "UserName", "Password", "URL", "Notes"]

/-- Concrete item refuting C1 as stated: two uris, the first one empty. -/
def c1item : JValue :=
  .obj [("login", .obj [("uris", .arr [.obj [("uri", .str "")], .obj [("uri", .str "x")]])])]

/-- Concrete item exercising the amended C1: three non-empty uris. -/
def c1witnessItem : JValue :=
  .obj [("login", .obj [("uris",
    .arr [.obj [("uri", .str "a")], .obj [("uri", .str "b")], .obj [("uri", .str "c")]])])]

/-- Concrete item with two custom fields sharing the name `a`. -/
def c2item : JValue :=
  .obj [("fields", .arr
    [.obj [("name", .str "a"), ("value", .str "v1")],
     .obj [("name", .str "a"), ("value", .str "v2"), ("type", .num 1)]])]

/-- Concrete item whose identity carries a `postalCode` (the documented
Bitwarden field name, capital C). -/
def c3item : JValue :=
  .obj [("identity", .obj
    [("address1", .str "A"), ("city", .str "C"), ("state", .str "S"),
     ("postalCode", .str "93103"), ("country", .str "U")])]

/-- Concrete vault refuting C7 as stated: one folder without an `id`
(so it is registered under the empty id) and one item without a
`folderId` (so its folder id reads as the empty string). -/
def c7vault : JValue :=
  .obj [("folders", .arr [.obj []]), ("items", .arr [.obj []])]

/-- Concrete vault for C6: two folders sharing an id, one malformed
(non-object) item and one ordinary item. -/
def c6vault : JValue :=
  .obj [("folders", .arr [.obj [("id", .str "f"), ("name", .str "n1")],
                          .obj [("id", .str "f"), ("name", .str "n2")]]),
        ("items", .arr [.num 5, .obj [("name", .str "entry")]])]

/-- Concrete vault whose item's folderId matches the second of two
folders sharing an id. -/
def c7witnessVault : JValue :=
  .obj [("folders", .arr [.obj [("id", .str "f"), ("name", .str "n1")],
                          .obj [("id", .str "f"), ("name", .str "n2")]]),
        ("items", .arr [.obj [("folderId", .str "f")], .obj [("folderId", .str "g")]])]

/-- Concrete item with leading empty uris for the C10 witness. -/
def c10item : JValue :=
  .obj [("login", .obj [("uris",
    .arr [.obj [("uri", .str "")], .obj [("uri", .str "")],
          .obj [("uri", .str "a")], .obj [("uri", .str "b")]])])]

theorem data_mk (l : List Char) : (String.mk l).data = l := rfl

theorem decReprAux_congr (f1 : Nat) : ∀ f2 n, n < f1 → n < f2 →
    decReprAux f1 n = decReprAux f2 n := by
  induction f1 with
  | zero => intro f2 n h1 _; omega
  | succ f1 ih =>
    intro f2 n h1 h2
    cases f2 with
    | zero => omega
    | succ f2 =>
      rw [decReprAux, decReprAux]
      by_cases hn : n < 10
      · rw [if_pos hn, if_pos hn]
      · rw [if_neg hn, if_neg hn]
        have hd : n / 10 < n := Nat.div_lt_self (by omega) (by omega)
        rw [ih f2 (n / 10) (by omega) (by omega)]

theorem decRepr_eq (n : Nat) : decRepr n =
    if n < 10 then String.mk [Nat.digitChar n]
    else decRepr (n / 10) ++ String.mk [Nat.digitChar (n % 10)] := by
  rw [decRepr, decReprAux]
  by_cases hn : n < 10
  · rw [if_pos hn, if_pos hn]
  · rw [if_neg hn, if_neg hn]
    have hd : n / 10 < n := Nat.div_lt_self (by omega) (by omega)
    rw [decReprAux_congr n (n / 10 + 1) (n / 10) (by omega) (by omega)]
    rfl

theorem decRepr_data_ne_nil (n : Nat) : (decRepr n).data ≠ [] := by
  rw [decRepr_eq]
  split
  · simp [data_mk]
  · intro h
    rw [String.data_append] at h
    simp [data_mk] at h

theorem digitChar_inj10 : ∀ x y : Fin 10, Nat.digitChar x.val = Nat.digitChar y.val → x = y := by
  decide

theorem decRepr_inj : ∀ a b : Nat, decRepr a = decRepr b → a = b := by
  intro a
  induction a using Nat.strong_induction_on with
  | _ a ih =>
    intro b h
    rw [decRepr_eq] at h
    by_cases ha : a < 10
    · rw [if_pos ha] at h
      rw [decRepr_eq] at h
      by_cases hb : b < 10
      · rw [if_pos hb] at h
        have hd := congrArg String.data h
        simp only [data_mk, List.cons.injEq, and_true] at hd
        have := digitChar_inj10 ⟨a, ha⟩ ⟨b, hb⟩ hd
        simpa using congrArg Fin.val this
      · rw [if_neg hb] at h
        exfalso
        have hl := congrArg String.data h
        rw [String.data_append] at hl
        have hlen := congrArg List.length hl
        simp only [data_mk, List.length_append, List.length_cons, List.length_nil] at hlen
        exact decRepr_data_ne_nil (b / 10) (List.length_eq_zero.mp (by omega))
    · rw [if_neg ha] at h
      nth_rewrite 2 [decRepr_eq] at h
      by_cases hb : b < 10
      · rw [if_pos hb] at h
        exfalso
        have hl := congrArg String.data h
        rw [String.data_append] at hl
        have hlen := congrArg List.length hl
        simp only [data_mk, List.length_append, List.length_cons, List.length_nil] at hlen
        exact decRepr_data_ne_nil (a / 10) (List.length_eq_zero.mp (by omega))
      · rw [if_neg hb] at h
        have hdata := congrArg String.data h
        rw [String.data_append, String.data_append] at hdata
        have hrev := congrArg List.reverse hdata
        simp only [data_mk, List.reverse_append, List.reverse_cons, List.reverse_nil,
          List.nil_append, List.singleton_append, List.cons.injEq] at hrev
        obtain ⟨hc, hrest⟩ := hrev
        have hmod : a % 10 = b % 10 := by
          have := digitChar_inj10 ⟨a % 10, Nat.mod_lt _ (by omega)⟩ ⟨b % 10, Nat.mod_lt _ (by omega)⟩ hc
          simpa using congrArg Fin.val this
        have hdiv : a / 10 = b / 10 := by
          apply ih (a / 10) (Nat.div_lt_self (by omega) (by omega))
          exact String.ext (List.reverse_inj.mp hrest)
        omega

theorem kpName_inj {a b : Nat} (h : kpName a = kpName b) : a = b := by
  apply decRepr_inj
  apply String.ext
  have := congrArg String.data h
  rw [kpName, kpName, String.data_append, String.data_append] at this
  exact List.append_cancel_left this

theorem kp_head (s : String) : (("KP2A_URL_" ++ s : String)).data.head? = some 'K' := by
  rw [String.data_append]
  rw [show ("KP2A_URL_" : String).data = 'K' :: ("P2A_URL_" : String).data from by decide]
  rfl

theorem kpName_ne_of_head (k : Nat) (t : String) (ht : t.data.head? ≠ some 'K') : kpName k ≠ t := by
  intro e
  exact ht (by rw [← e, kpName]; exact kp_head _)

theorem kpName_not_mem_defaultNames (k : Nat) : kpName k ∉ defaultNames := by
  intro hmem
  simp only [defaultNames, List.mem_cons, List.not_mem_nil, or_false] at hmem
  rcases hmem with h | h | h | h | h <;>
    exact kpName_ne_of_head k _ (by decide) h

theorem kpName_ne_url (k : Nat) : kpName k ≠ "URL" :=
  kpName_ne_of_head k _ (by decide)

theorem kpName_ne_identity (k : Nat) : kpName k ≠ "identity_address" :=
  kpName_ne_of_head k _ (by decide)

theorem underscore_append_ne_url (a b : String) : a ++ "_" ++ b ≠ "URL" := by
  intro h
  have hd := congrArg String.data h
  rw [String.data_append, String.data_append] at hd
  have hm : '_' ∈ ("URL" : String).data := by
    rw [← hd]
    exact List.mem_append_left _ (List.mem_append_right _ (by decide))
  revert hm
  decide

theorem hasKey_cons (a : Attr) (rest : List Attr) (k : String) :
    hasKey (a :: rest) k = ((a.name == k) || hasKey rest k) := by
  simp [hasKey]

theorem hasKey_iff_mem (attrs : List Attr) (k : String) :
    hasKey attrs k = true ↔ k ∈ attrs.map (fun a => a.name) := by
  simp only [hasKey, List.any_eq_true, List.mem_map]
  constructor
  · rintro ⟨a, ha, he⟩
    exact ⟨a, ha, (beq_iff_eq.mp he).symm ▸ rfl⟩
  · rintro ⟨a, ha, he⟩
    exact ⟨a, ha, beq_iff_eq.mpr he⟩

theorem setAttr_of_not_hasKey (attrs : List Attr) (k v : String) (p : Bool)
    (h : hasKey attrs k = false) : setAttr attrs k v p = attrs ++ [⟨k, v, p⟩] := by
  induction attrs with
  | nil => rfl
  | cons a rest ih =>
    rw [hasKey_cons, Bool.or_eq_false_iff] at h
    simp [setAttr, h.1, ih h.2]

theorem getAttr_setAttr_same (attrs : List Attr) (k v : String) (p : Bool) :
    getAttr (setAttr attrs k v p) k = v := by
  induction attrs with
  | nil => simp [setAttr, getAttr, List.find?]
  | cons a rest ih =>
    by_cases h : a.name == k
    · simp [setAttr, h, getAttr, List.find?]
    · simp only [setAttr, h, Bool.false_eq_true, if_false]
      simpa [getAttr, List.find?, h] using ih

theorem getAttr_setAttr_ne (attrs : List Attr) {k k' : String} (v : String) (p : Bool)
    (h : k' ≠ k) : getAttr (setAttr attrs k v p) k' = getAttr attrs k' := by
  induction attrs with
  | nil =>
    simp [setAttr, getAttr, List.find?, show (k == k') = false from beq_eq_false_iff_ne.mpr (Ne.symm h)]
  | cons a rest ih =>
    by_cases hk : a.name == k
    · have hk' : (a.name == k') = false :=
        beq_eq_false_iff_ne.mpr (fun e => h ((beq_iff_eq.mp hk ▸ e : (k : String) = k')).symm)
      simp [setAttr, hk, getAttr, List.find?, hk']
    · by_cases hk2 : a.name == k'
      · simp [setAttr, hk, getAttr, List.find?, hk2]
      · simp only [setAttr, hk, Bool.false_eq_true, if_false]
        simpa [getAttr, List.find?, hk2] using ih

theorem hasKey_setAttr_self (attrs : List Attr) (k v : String) (p : Bool) :
    hasKey (setAttr attrs k v p) k = true := by
  induction attrs with
  | nil => simp [setAttr, hasKey]
  | cons a rest ih =>
    by_cases h : a.name == k
    · simp [setAttr, h, hasKey]
    · simp [setAttr, h, hasKey_cons, ih]

theorem hasKey_setAttr_ne (attrs : List Attr) {k k' : String} (v : String) (p : Bool)
    (h : k' ≠ k) : hasKey (setAttr attrs k v p) k' = hasKey attrs k' := by
  induction attrs with
  | nil =>
    simp [setAttr, hasKey, show (k == k') = false from beq_eq_false_iff_ne.mpr (Ne.symm h)]
  | cons a rest ih =>
    by_cases hk : a.name == k
    · simp [setAttr, hk, hasKey_cons]
    · simp [setAttr, hk, hasKey_cons, ih]

theorem names_setAttr_of_hasKey (attrs : List Attr) (k v : String) (p : Bool)
    (h : hasKey attrs k = true) :
    (setAttr attrs k v p).map (fun a => a.name) = attrs.map (fun a => a.name) := by
  induction attrs with
  | nil => simp [hasKey] at h
  | cons a rest ih =>
    rw [hasKey_cons] at h
    by_cases hk : a.name == k
    · simp [setAttr, hk]
    · simp only [hk, Bool.false_or] at h
      simp [setAttr, hk, ih h]

theorem hasKey_append (l1 l2 : List Attr) (k : String) :
    hasKey (l1 ++ l2) k = (hasKey l1 k || hasKey l2 k) := by
  simp [hasKey, List.any_append]

theorem getAttr_append_left (l1 l2 : List Attr) (k : String) (h : hasKey l1 k = true) :
    getAttr (l1 ++ l2) k = getAttr l1 k := by
  unfold getAttr
  rw [List.find?_append]
  have : ∃ a ∈ l1, (fun a : Attr => a.name == k) a := by
    simpa [hasKey, List.any_eq_true] using h
  obtain ⟨a, ha, hp⟩ := this
  cases hf : l1.find? (fun a => a.name == k) with
  | some b => rfl
  | none => exact absurd (List.find?_eq_none.mp hf a ha) (by simp [hp])

theorem getAttr_append_right (l1 l2 : List Attr) (k : String) (h : hasKey l1 k = false) :
    getAttr (l1 ++ l2) k = getAttr l2 k := by
  unfold getAttr
  rw [List.find?_append]
  have : l1.find? (fun a => a.name == k) = none := by
    rw [List.find?_eq_none]
    intro a ha
    simp only [hasKey, List.any_eq_false] at h
    simpa using h a ha
  rw [this, Option.none_or]

theorem getAttr_of_not_hasKey (attrs : List Attr) (k : String) (h : hasKey attrs k = false) :
    getAttr attrs k = "" := by
  unfold getAttr
  have : attrs.find? (fun a => a.name == k) = none := by
    rw [List.find?_eq_none]
    intro a ha
    simp only [hasKey, List.any_eq_false] at h
    simpa using h a ha
  rw [this]

theorem url_mk (e : Entry) (attrs : List Attr) :
    ({ e with attributes := attrs } : Entry).url = getAttr attrs "URL" := rfl

theorem setUrl_url (e : Entry) (s : String) : (e.setUrl s).url = s := by
  simp [Entry.setUrl, Entry.url, getAttr_setAttr_same]

theorem processUris_append (us : List JValue) (e : Entry) (i : Nat)
    (hurl : ¬ e.url = "")
    (hfresh : ∀ k, i ≤ k → hasKey e.attributes (kpName k) = false) :
    processUris e i us = { e with attributes := e.attributes ++ overflowAttrs i us } := by
  induction us generalizing e i with
  | nil => simp [processUris, overflowAttrs]
  | cons u rest ih =>
    have hb : (e.url == "") = false := beq_eq_false_iff_ne.mpr hurl
    rw [processUris]
    simp only [hb, Bool.false_eq_true, if_false]
    have happ : setAttr e.attributes (kpName i) (uriStr u) false
        = e.attributes ++ [⟨kpName i, uriStr u, false⟩] :=
      setAttr_of_not_hasKey _ _ _ _ (hfresh i le_rfl)
    have hurl' : ¬ ({ e with attributes := setAttr e.attributes (kpName i) (uriStr u) false } : Entry).url = "" := by
      rw [url_mk, getAttr_setAttr_ne _ _ _ (Ne.symm (kpName_ne_url i))]
      exact hurl
    have hfresh' : ∀ k, i + 1 ≤ k →
        hasKey ({ e with attributes := setAttr e.attributes (kpName i) (uriStr u) false } : Entry).attributes (kpName k) = false := by
      intro k hk
      show hasKey (setAttr e.attributes (kpName i) (uriStr u) false) (kpName k) = false
      rw [hasKey_setAttr_ne _ _ _ (fun h => by have := kpName_inj h; omega)]
      exact hfresh k (by omega)
    rw [ih _ _ hurl' hfresh']
    simp [happ, overflowAttrs, List.append_assoc]

theorem processUris_url (us : List JValue) (e : Entry) (i : Nat)
    (hkey : hasKey e.attributes "URL" = true) :
    (processUris e i us).url =
      if e.url == "" then ((uriStrings us).dropWhile (fun s => s == "")).headD "" else e.url := by
  induction us generalizing e i with
  | nil =>
    by_cases h : e.url == "" <;> simp [processUris, uriStrings, h]
    · exact (beq_iff_eq.mp h)
  | cons u rest ih =>
    by_cases h : e.url == ""
    · rw [processUris]
      simp only [h, if_true]
      rw [ih _ _ (by simp [Entry.setUrl, hasKey_setAttr_self])]
      rw [setUrl_url]
      by_cases hs : uriStr u == "" <;>
        simp [uriStrings, List.dropWhile_cons, hs]
    · rw [processUris]
      simp only [h, Bool.false_eq_true, if_false]
      have hurl' : ({ e with attributes := setAttr e.attributes (kpName i) (uriStr u) false } : Entry).url = e.url := by
        rw [url_mk, getAttr_setAttr_ne _ _ _ (Ne.symm (kpName_ne_url i))]
        rfl
      rw [ih _ _ (by show hasKey (setAttr _ _ _ _) _ = true
                     rw [hasKey_setAttr_ne _ _ _ (Ne.symm (kpName_ne_url i))]
                     exact hkey)]
      rw [hurl']
      simp [h]

theorem processUris_names (us : List JValue) (e : Entry) (i : Nat)
    (hkey : hasKey e.attributes "URL" = true)
    (hfresh : ∀ k, i ≤ k → hasKey e.attributes (kpName k) = false) :
    (processUris e i us).attributes.map (fun a => a.name) =
      e.attributes.map (fun a => a.name) ++
        (List.range' i (overflowCount e.url (uriStrings us))).map kpName := by
  induction us generalizing e i with
  | nil =>
    by_cases h : e.url == "" <;> simp [processUris, overflowCount, uriStrings, h]
  | cons u rest ih =>
    by_cases h : e.url == ""
    · rw [processUris]
      simp only [h, if_true]
      rw [ih (e.setUrl (uriStr u)) i
        (by simp [Entry.setUrl, hasKey_setAttr_self])
        (by intro k _
            show hasKey (setAttr _ _ _ _) _ = false
            rw [hasKey_setAttr_ne _ _ _ (kpName_ne_url k)]
            exact hfresh k (by omega))]
      have hnames : (e.setUrl (uriStr u)).attributes.map (fun a => a.name)
          = e.attributes.map (fun a => a.name) :=
        names_setAttr_of_hasKey _ _ _ _ hkey
      rw [hnames, setUrl_url]
      congr 2
      by_cases hs : uriStr u == ""
      · simp only [overflowCount, h, hs, if_true, uriStrings, List.map_cons,
          List.takeWhile_cons, List.length_cons, List.length_map]
        congr 1
        omega
      · simp only [overflowCount, h, hs, if_true, Bool.false_eq_true, if_false,
          uriStrings, List.map_cons, List.takeWhile_cons, List.length_cons]
        simp [hs, Nat.succ_sub_one]
    · rw [processUris]
      simp only [h, Bool.false_eq_true, if_false]
      have happ : setAttr e.attributes (kpName i) (uriStr u) false
          = e.attributes ++ [⟨kpName i, uriStr u, false⟩] :=
        setAttr_of_not_hasKey _ _ _ _ (hfresh i le_rfl)
      rw [ih _ (i + 1)
        (by show hasKey (setAttr _ _ _ _) _ = true
            rw [hasKey_setAttr_ne _ _ _ (Ne.symm (kpName_ne_url i))]
            exact hkey)
        (by intro k hk
            show hasKey (setAttr _ _ _ _) _ = false
            rw [hasKey_setAttr_ne _ _ _ (fun hh => by have := kpName_inj hh; omega)]
            exact hfresh k (by omega))]
      have hurl' : ({ e with attributes := setAttr e.attributes (kpName i) (uriStr u) false } : Entry).url = e.url := by
        rw [url_mk, getAttr_setAttr_ne _ _ _ (Ne.symm (kpName_ne_url i))]
        rfl
      rw [hurl']
      have hcount : overflowCount e.url (uriStrings (u :: rest))
          = overflowCount e.url (uriStrings rest) + 1 := by
        simp [overflowCount, h, uriStrings]
      rw [hcount, List.range'_succ]
      simp [happ, List.append_assoc]

theorem names_set_default {attrs : List Attr} (k v : String) (p : Bool)
    (h : attrs.map (fun a => a.name) = defaultNames) (hk : k ∈ defaultNames) :
    (setAttr attrs k v p).map (fun a => a.name) = defaultNames := by
  rw [names_setAttr_of_hasKey]
  · exact h
  · rw [hasKey_iff_mem, h]
    exact hk

theorem addTag_attributes (e : Entry) (s : String) : (e.addTag s).attributes = e.attributes := by
  rw [Entry.addTag]
  split <;> rfl

theorem entryAfterLogin_names (item : JValue) :
    (entryAfterLogin item).attributes.map (fun a => a.name) = defaultNames := by
  have hbase : ∀ x y : String,
      ((newEntry.setTitle x).setNotes y).attributes.map (fun a => a.name) = defaultNames := by
    intro x y
    simp only [Entry.setTitle, Entry.setNotes]
    apply names_set_default _ _ _ _ (by decide)
    apply names_set_default _ _ _ _ (by decide)
    rfl
  have hfavbase : ∀ x y s : String,
      (((newEntry.setTitle x).setNotes y).addTag s).attributes.map (fun a => a.name) = defaultNames := by
    intro x y s
    rw [addTag_attributes]
    exact hbase x y
  have hfav : (if vBool (jValue item "favorite") then
        ((newEntry.setTitle (vStr (jValue item "name"))).setNotes (vStr (jValue item "notes"))).addTag "Favorite"
      else
        (newEntry.setTitle (vStr (jValue item "name"))).setNotes
          (vStr (jValue item "notes"))).attributes.map (fun a => a.name) = defaultNames := by
    split
    · exact hfavbase _ _ _
    · exact hbase _ _
  rw [entryAfterLogin]
  cases hlog : jContains item "login" with
  | false => simpa only [Bool.false_eq_true, if_false] using hfav
  | true =>
    simp only [if_true]
    cases htot : jContains (jValue item "login") "totp" with
    | false =>
      simp only [Bool.false_eq_true, if_false, Entry.setUsername, Entry.setPassword]
      apply names_set_default _ _ _ _ (by decide)
      apply names_set_default _ _ _ _ (by decide)
      exact hfav
    | true =>
      simp only [if_true, Entry.setUsername, Entry.setPassword]
      apply names_set_default _ _ _ _ (by decide)
      apply names_set_default _ _ _ _ (by decide)
      exact hfav

theorem entryAfterLogin_url (item : JValue) : (entryAfterLogin item).url = "" := by
  have hbase : ∀ x y : String, ((newEntry.setTitle x).setNotes y).url = "" := by
    intro x y
    simp only [Entry.setTitle, Entry.setNotes, Entry.url, url_mk]
    rw [getAttr_setAttr_ne _ _ _ (by decide), getAttr_setAttr_ne _ _ _ (by decide)]
    rfl
  have hfav : (if vBool (jValue item "favorite") then
        ((newEntry.setTitle (vStr (jValue item "name"))).setNotes (vStr (jValue item "notes"))).addTag "Favorite"
      else
        (newEntry.setTitle (vStr (jValue item "name"))).setNotes
          (vStr (jValue item "notes"))).url = "" := by
    split
    · show getAttr (Entry.addTag _ _).attributes "URL" = ""
      rw [addTag_attributes]
      exact hbase _ _
    · exact hbase _ _
  rw [entryAfterLogin]
  cases hlog : jContains item "login" with
  | false => simpa only [Bool.false_eq_true, if_false] using hfav
  | true =>
    simp only [if_true]
    cases htot : jContains (jValue item "login") "totp" with
    | false =>
      simp only [Bool.false_eq_true, if_false, Entry.setUsername, Entry.setPassword, Entry.url]
      rw [getAttr_setAttr_ne _ _ _ (by decide), getAttr_setAttr_ne _ _ _ (by decide)]
      exact hfav
    | true =>
      simp only [if_true, Entry.setUsername, Entry.setPassword, Entry.url]
      rw [getAttr_setAttr_ne _ _ _ (by decide), getAttr_setAttr_ne _ _ _ (by decide)]
      exact hfav

theorem entryAfterLogin_hasKeyURL (item : JValue) :
    hasKey (entryAfterLogin item).attributes "URL" = true := by
  rw [hasKey_iff_mem, entryAfterLogin_names]
  decide

theorem entryAfterLogin_fresh (item : JValue) (k : Nat) :
    hasKey (entryAfterLogin item).attributes (kpName k) = false := by
  cases hh : hasKey (entryAfterLogin item).attributes (kpName k) with
  | false => rfl
  | true =>
    have := (hasKey_iff_mem _ _).mp hh
    rw [entryAfterLogin_names] at this
    exact absurd this (kpName_not_mem_defaultNames k)

theorem hasKey_overflowAttrs_false (us : List JValue) (i : Nat) (k' : String)
    (h : ∀ j : Nat, k' ≠ kpName j) : hasKey (overflowAttrs i us) k' = false := by
  induction us generalizing i with
  | nil => rfl
  | cons u rest ih =>
    rw [overflowAttrs, hasKey_cons, ih (i + 1)]
    simp [beq_eq_false_iff_ne.mpr (fun e => h i e.symm)]

theorem hasKey_overflowAttrs_true (us : List JValue) (i k : Nat)
    (hik : i ≤ k) (hlt : k - i < us.length) : hasKey (overflowAttrs i us) (kpName k) = true := by
  induction us generalizing i with
  | nil => simp at hlt
  | cons u rest ih =>
    rw [overflowAttrs, hasKey_cons]
    by_cases he : k = i
    · simp [he]
    · have h1 : i + 1 ≤ k := by omega
      rw [ih (i + 1) h1 (by simp at hlt ⊢; omega)]
      simp

theorem getAttr_overflowAttrs (us : List JValue) (i k : Nat)
    (hik : i ≤ k) (hlt : k - i < us.length) :
    getAttr (overflowAttrs i us) (kpName k) = uriStr (us.getD (k - i) .null) := by
  induction us generalizing i with
  | nil => simp at hlt
  | cons u rest ih =>
    rw [overflowAttrs]
    by_cases he : k = i
    · subst he
      simp [getAttr, List.find?]
    · have hne : (kpName i == kpName k) = false :=
        beq_eq_false_iff_ne.mpr (fun e => he (kpName_inj e).symm)
      have h1 : i + 1 ≤ k := by omega
      rw [show getAttr (⟨kpName i, uriStr u, false⟩ :: overflowAttrs (i + 1) rest) (kpName k)
          = getAttr (overflowAttrs (i + 1) rest) (kpName k) from by simp [getAttr, List.find?, hne]]
      rw [ih (i + 1) h1 (by simp at hlt ⊢; omega)]
      congr 1
      have : k - i = (k - (i + 1)) + 1 := by omega
      rw [this]
      rfl

theorem processFields_spec (fs : List JValue) (attrs : List Attr) (sufs : List String)
    (h : goodSuffixes attrs fs sufs = true) :
    ∃ extra, processFields attrs fs sufs = attrs ++ extra ∧ extra.length = fs.length ∧
      ((attrs.map (fun a => a.name)).Nodup → ((attrs ++ extra).map (fun a => a.name)).Nodup) := by
  induction fs generalizing attrs sufs with
  | nil => exact ⟨[], by simp [processFields], by simp, by simp⟩
  | cons f rest ih =>
    rw [goodSuffixes] at h
    by_cases hk : hasKey attrs (vStr (jValue f "name"))
    · rw [processFields, if_pos hk]
      simp only [hk, if_true, Bool.and_eq_true, Bool.not_eq_true'] at h
      obtain ⟨h1, h2⟩ := h
      have happ := setAttr_of_not_hasKey attrs (vStr (jValue f "name") ++ "_" ++ sufs.headD "")
        (vStr (jValue f "value")) (vInt (jValue f "type") == 1) h1
      rw [happ] at h2 ⊢
      obtain ⟨extra, he, hl, hnd⟩ := ih _ _ h2
      refine ⟨(⟨vStr (jValue f "name") ++ "_" ++ sufs.headD "", vStr (jValue f "value"),
        vInt (jValue f "type") == 1⟩ : Attr) :: extra, ?_, by simp [hl], ?_⟩
      · rw [he, List.append_assoc]
        rfl
      · intro hnodup
        have hstep : ((attrs ++ [(⟨vStr (jValue f "name") ++ "_" ++ sufs.headD "",
            vStr (jValue f "value"), vInt (jValue f "type") == 1⟩ : Attr)]).map (fun a => a.name)).Nodup := by
          rw [List.map_append, List.nodup_append]
          refine ⟨hnodup, by simp, ?_⟩
          intro x hx
          simp only [List.map_cons, List.map_nil, List.mem_singleton]
          intro he2
          subst he2
          exact absurd ((hasKey_iff_mem _ _).mpr hx) (by simpa using h1)
        have := hnd hstep
        rw [List.append_assoc] at this
        simpa using this
    · rw [processFields, if_neg hk]
      simp only [hk, Bool.false_eq_true, if_false] at h
      have happ := setAttr_of_not_hasKey attrs (vStr (jValue f "name"))
        (vStr (jValue f "value")) (vInt (jValue f "type") == 1) (by simpa using hk)
      rw [happ] at h ⊢
      obtain ⟨extra, he, hl, hnd⟩ := ih _ _ h
      refine ⟨(⟨vStr (jValue f "name"), vStr (jValue f "value"),
        vInt (jValue f "type") == 1⟩ : Attr) :: extra, ?_, by simp [hl], ?_⟩
      · rw [he, List.append_assoc]
        rfl
      · intro hnodup
        have hstep : ((attrs ++ [(⟨vStr (jValue f "name"), vStr (jValue f "value"),
            vInt (jValue f "type") == 1⟩ : Attr)]).map (fun a => a.name)).Nodup := by
          rw [List.map_append, List.nodup_append]
          refine ⟨hnodup, by simp, ?_⟩
          intro x hx
          simp only [List.map_cons, List.map_nil, List.mem_singleton]
          intro he2
          subst he2
          exact absurd ((hasKey_iff_mem _ _).mpr hx) (by simpa using hk)
        have := hnd hstep
        rw [List.append_assoc] at this
        simpa using this

theorem processFields_getAttr (fs : List JValue) (attrs : List Attr) (sufs : List String)
    (k : String) (h : goodSuffixes attrs fs sufs = true) (hkey : hasKey attrs k = true) :
    getAttr (processFields attrs fs sufs) k = getAttr attrs k := by
  obtain ⟨extra, he, -, -⟩ := processFields_spec fs attrs sufs h
  rw [he, getAttr_append_left _ _ _ hkey]

theorem processFields_url (fs : List JValue) (attrs : List Attr) (sufs : List String)
    (hkey : hasKey attrs "URL" = true) :
    getAttr (processFields attrs fs sufs) "URL" = getAttr attrs "URL" := by
  induction fs generalizing attrs sufs with
  | nil => rfl
  | cons f rest ih =>
    rw [processFields]
    by_cases hk : hasKey attrs (vStr (jValue f "name"))
    · simp only [hk, if_true]
      have hne : ("URL" : String) ≠ vStr (jValue f "name") ++ "_" ++ sufs.headD "" :=
        fun e => underscore_append_ne_url _ _ e.symm
      rw [ih _ _ (by rw [hasKey_setAttr_ne _ _ _ hne]; exact hkey)]
      exact getAttr_setAttr_ne _ _ _ hne
    · simp only [hk, Bool.false_eq_true, if_false]
      have hne : ("URL" : String) ≠ vStr (jValue f "name") := by
        intro e
        rw [← e] at hk
        exact hk hkey
      rw [ih _ _ (by rw [hasKey_setAttr_ne _ _ _ hne]; exact hkey)]
      exact getAttr_setAttr_ne _ _ _ hne

theorem readItemPre_login_attrs (item : JValue) (u0 : JValue) (rest : List JValue)
    (hlog : jContains item "login" = true)
    (hus : vList (jValue (jValue item "login") "uris") = u0 :: rest)
    (hne : ¬ uriStr u0 = "") :
    (readItemPre item).fst.attributes =
      ((entryAfterLogin item).setUrl (uriStr u0)).attributes ++ overflowAttrs 1 rest
        ++ (if jContains item "identity" then
              [⟨"identity_address", identityAddress item, false⟩] else []) := by
  have hstep : processUris (entryAfterLogin item) 1 (u0 :: rest)
      = { (entryAfterLogin item).setUrl (uriStr u0) with
          attributes := ((entryAfterLogin item).setUrl (uriStr u0)).attributes ++ overflowAttrs 1 rest } := by
    rw [processUris]
    have hurl0 : ((entryAfterLogin item).url == "") = true := by
      rw [entryAfterLogin_url]
      rfl
    simp only [hurl0, if_true]
    apply processUris_append
    · rw [setUrl_url]
      exact hne
    · intro k _
      show hasKey (setAttr _ _ _ _) _ = false
      rw [hasKey_setAttr_ne _ _ _ (kpName_ne_url k)]
      exact entryAfterLogin_fresh item k
  have hid : hasKey (((entryAfterLogin item).setUrl (uriStr u0)).attributes ++ overflowAttrs 1 rest)
      "identity_address" = false := by
    rw [hasKey_append]
    have h1 : hasKey ((entryAfterLogin item).setUrl (uriStr u0)).attributes "identity_address" = false := by
      cases hh : hasKey ((entryAfterLogin item).setUrl (uriStr u0)).attributes "identity_address" with
      | false => rfl
      | true =>
        have := (hasKey_iff_mem _ _).mp hh
        rw [show ((entryAfterLogin item).setUrl (uriStr u0)).attributes
            = setAttr (entryAfterLogin item).attributes "URL" (uriStr u0) false from rfl,
          names_setAttr_of_hasKey _ _ _ _ (entryAfterLogin_hasKeyURL item),
          entryAfterLogin_names] at this
        exact absurd this (by decide)
    have h2 : hasKey (overflowAttrs 1 rest) "identity_address" = false :=
      hasKey_overflowAttrs_false rest 1 _ (fun j e => kpName_ne_identity j e.symm)
    rw [h1, h2]
    rfl
  rw [readItemPre]
  simp only [hlog, if_true, hus]
  rw [hstep]
  cases hident : jContains item "identity" with
  | false => simp
  | true =>
    simp only [if_true]
    show setAttr (((entryAfterLogin item).setUrl (uriStr u0)).attributes ++ overflowAttrs 1 rest)
        "identity_address" (identityAddress item) false = _
    rw [setAttr_of_not_hasKey _ _ _ _ hid]

theorem readItemPre_names (item : JValue) :
    ∃ m, (readItemPre item).fst.attributes.map (fun a => a.name) =
      (defaultNames ++ (List.range' 1 m).map kpName) ++
        (if jContains item "identity" then ["identity_address"] else []) := by
  have hbase : ∃ m, (if jContains item "login" then
        processUris (entryAfterLogin item) 1 (vList (jValue (jValue item "login") "uris"))
      else entryAfterLogin item).attributes.map (fun a => a.name)
      = defaultNames ++ (List.range' 1 m).map kpName := by
    cases hlog : jContains item "login" with
    | false =>
      refine ⟨0, ?_⟩
      simp [entryAfterLogin_names]
    | true =>
      refine ⟨overflowCount (entryAfterLogin item).url
        (uriStrings (vList (jValue (jValue item "login") "uris"))), ?_⟩
      simp only [if_true]
      rw [processUris_names _ _ _ (entryAfterLogin_hasKeyURL item)
        (fun k _ => entryAfterLogin_fresh item k)]
      rw [entryAfterLogin_names]
  obtain ⟨m, hm⟩ := hbase
  refine ⟨m, ?_⟩
  rw [readItemPre]
  cases hident : jContains item "identity" with
  | false =>
    simp only [Bool.false_eq_true, if_false, List.append_nil]
    exact hm
  | true =>
    simp only [if_true]
    have hid : hasKey (if jContains item "login" then
        processUris (entryAfterLogin item) 1 (vList (jValue (jValue item "login") "uris"))
      else entryAfterLogin item).attributes "identity_address" = false := by
      cases hh : hasKey _ _ with
      | false => rfl
      | true =>
        have := (hasKey_iff_mem _ _).mp hh
        rw [hm] at this
        rcases List.mem_append.mp this with h | h
        · exact absurd h (by decide)
        · obtain ⟨j, -, he⟩ := List.mem_map.mp h
          exact (kpName_ne_identity j he).elim
    show ((setAttr _ "identity_address" (identityAddress item) false).map (fun a => a.name)) = _
    rw [setAttr_of_not_hasKey _ _ _ _ hid, List.map_append, hm]
    rfl

theorem readItemPre_nodup (item : JValue) :
    ((readItemPre item).fst.attributes.map (fun a => a.name)).Nodup := by
  obtain ⟨m, hm⟩ := readItemPre_names item
  rw [hm]
  have hkp : ((List.range' 1 m).map kpName).Nodup :=
    (List.nodup_range' 1 m).map (fun a b h => kpName_inj h)
  have hleft : (defaultNames ++ (List.range' 1 m).map kpName).Nodup := by
    rw [List.nodup_append]
    refine ⟨by decide, hkp, ?_⟩
    intro x hx hy
    obtain ⟨j, -, he⟩ := List.mem_map.mp hy
    exact kpName_not_mem_defaultNames j (he ▸ hx)
  rw [List.nodup_append]
  refine ⟨hleft, ?_, ?_⟩
  · split <;> simp
  · intro x hx hy
    have hxid : x = "identity_address" := by
      cases h : jContains item "identity" <;> rw [h] at hy
      · simp at hy
      · simpa using hy
    subst hxid
    rcases List.mem_append.mp hx with h | h
    · exact absurd h (by decide)
    · obtain ⟨j, -, he⟩ := List.mem_map.mp h
      exact kpName_ne_identity j he

theorem lookup_qmapInsert (m : List (String × Nat)) (k k' : String) (v : Nat) :
    (qmapInsert m k v).lookup k' = if k' == k then some v else m.lookup k' := by
  induction m with
  | nil =>
    rw [qmapInsert]
    by_cases h : k' == k <;> simp [List.lookup, h]
  | cons a rest ih =>
    obtain ⟨ka, va⟩ := a
    rw [qmapInsert]
    by_cases hak : ka == k
    · have hk : ka = k := beq_iff_eq.mp hak
      subst hk
      by_cases hk' : k' == ka <;> simp [List.lookup, hk']
    · by_cases hk' : k' == ka
      · have : k' = ka := beq_iff_eq.mp hk'
        subst this
        simp only [hak, Bool.false_eq_true, if_false]
        simp [List.lookup, hak]
      · simp only [hak, Bool.false_eq_true, if_false]
        simp [List.lookup, hk', ih]

theorem lookup_buildFolderMapAux (folders : List JValue) (m : List (String × Nat)) (g : Nat)
    (hm : ∀ k v, m.lookup k = some v → v < g) :
    ∀ k v, (buildFolderMapAux m g folders).lookup k = some v → v < g + folders.length := by
  induction folders generalizing m g with
  | nil => exact fun k v h => Nat.lt_of_lt_of_le (hm k v h) (by omega)
  | cons f rest ih =>
    intro k v h
    rw [buildFolderMapAux] at h
    have := ih (qmapInsert m (vStr (jValue (jObjOf f) "id")) g) (g + 1)
      (by intro k' v' h'
          rw [lookup_qmapInsert] at h'
          by_cases hk : k' == vStr (jValue (jObjOf f) "id")
          · rw [if_pos hk] at h'
            obtain rfl : g = v' := Option.some.inj h'
            omega
          · rw [if_neg hk] at h'
            have := hm k' v' h'
            omega) k v h
    simp only [List.length_cons]
    omega

theorem lookup_buildFolderMap (folders : List JValue) (k : String) (v : Nat)
    (h : (buildFolderMap folders).lookup k = some v) : v < folders.length := by
  have := lookup_buildFolderMapAux folders [] 0 (by intro k v h; simp [List.lookup] at h) k v h
  simpa using this

theorem addToGroup_length (gs : List GroupM) (g : Nat) (e : Entry) :
    (addToGroup gs g e).length = gs.length := by
  induction gs generalizing g with
  | nil => rfl
  | cons gr rest ih =>
    cases g with
    | zero => rfl
    | succ n => simp [addToGroup, ih]

theorem addToGroup_sum (gs : List GroupM) (g : Nat) (e : Entry) (h : g < gs.length) :
    ((addToGroup gs g e).map (fun gr => gr.entries.length)).sum
      = ((gs.map (fun gr => gr.entries.length)).sum) + 1 := by
  induction gs generalizing g with
  | nil => simp at h
  | cons gr rest ih =>
    cases g with
    | zero => simp [addToGroup]; omega
    | succ n =>
      have := ih n (by simpa using Nat.lt_of_succ_lt_succ h)
      simp [addToGroup, this]
      omega

theorem addToGroup_getD (gs : List GroupM) (g0 : Nat) (e : Entry) (g : Nat) :
    (addToGroup gs g0 e).getD g ⟨"", []⟩ =
      if g = g0 ∧ g0 < gs.length then
        { gs.getD g ⟨"", []⟩ with entries := (gs.getD g ⟨"", []⟩).entries ++ [e] }
      else gs.getD g ⟨"", []⟩ := by
  induction gs generalizing g0 g with
  | nil => simp [addToGroup]
  | cons gr rest ih =>
    cases g0 with
    | zero =>
      cases g with
      | zero => simp [addToGroup, List.getD_cons_zero]
      | succ n => simp [addToGroup, List.getD_cons_succ]
    | succ n0 =>
      cases g with
      | zero => simp [addToGroup, List.getD_cons_zero]
      | succ n =>
        simp only [addToGroup, List.getD_cons_succ, ih n0 n, List.length_cons]
        by_cases he : n = n0 ∧ n0 < rest.length
        · rw [if_pos he, if_pos (by omega)]
        · rw [if_neg he, if_neg (by omega)]

theorem attachAll_length (items : List JValue) (fm : List (String × Nat))
    (sufs : Nat → List String) (j : Nat) (db : DatabaseM) :
    (attachAll fm sufs items j db).childGroups.length = db.childGroups.length := by
  induction items generalizing j db with
  | nil => rfl
  | cons it rest ih =>
    rw [attachAll]
    cases hl : (fm.lookup (readItem (jObjOf it) (sufs j)).snd) with
    | some g => rw [ih]; simp [addToGroup_length]
    | none => rw [ih]

theorem attachAll_totalEntries (items : List JValue) (fm : List (String × Nat))
    (sufs : Nat → List String) (j : Nat) (db : DatabaseM)
    (hv : ∀ k v, fm.lookup k = some v → v < db.childGroups.length) :
    totalEntries (attachAll fm sufs items j db) = totalEntries db + items.length := by
  induction items generalizing j db with
  | nil => rfl
  | cons it rest ih
  => rw [attachAll]
     cases hl : (fm.lookup (readItem (jObjOf it) (sufs j)).snd) with
     | some g =>
       dsimp only
       rw [ih _ _ (by intro k v h; rw [addToGroup_length]; exact hv k v h)]
       have hg := hv _ _ hl
       simp only [totalEntries, addToGroup_sum _ _ _ hg, List.length_cons]
       omega
     | none =>
       dsimp only
       rw [ih _ _ (by intro k v h; exact hv k v h)]
       simp only [totalEntries, List.length_append, List.length_cons, List.length_nil]
       omega

theorem attachAll_resolved (items : List JValue) (fm : List (String × Nat))
    (sufs : Nat → List String) (j : Nat) (db : DatabaseM)
    (hv : ∀ k v, fm.lookup k = some v → v < db.childGroups.length) :
    (attachAll fm sufs items j db).rootEntries
        = db.rootEntries ++ entriesResolvedTo fm sufs none items j ∧
      ∀ g : Nat, g < db.childGroups.length →
        ((attachAll fm sufs items j db).childGroups.getD g ⟨"", []⟩).entries
          = (db.childGroups.getD g ⟨"", []⟩).entries ++ entriesResolvedTo fm sufs (some g) items j := by
  induction items generalizing j db with
  | nil => simp [attachAll, entriesResolvedTo]
  | cons it rest ih =>
    rw [attachAll]
    cases hl : (fm.lookup (readItem (jObjOf it) (sufs j)).snd) with
    | none =>
      dsimp only
      obtain ⟨ihr, ihg⟩ := ih (j + 1)
        { rootEntries := db.rootEntries ++ [(readItem (jObjOf it) (sufs j)).fst],
          childGroups := db.childGroups }
        (by intro k v h; exact hv k v h)
      constructor
      · rw [ihr]
        rw [entriesResolvedTo]
        dsimp only
        rw [if_pos hl]
        simp [List.append_assoc]
      · intro g hg
        rw [ihg g hg]
        rw [entriesResolvedTo]
        dsimp only
        rw [if_neg (by rw [hl]; exact fun h => Option.noConfusion h)]
    | some g0 =>
      dsimp only
      obtain ⟨ihr, ihg⟩ := ih (j + 1)
        { rootEntries := db.rootEntries,
          childGroups := addToGroup db.childGroups g0 (readItem (jObjOf it) (sufs j)).fst }
        (by intro k v h
            show v < (addToGroup db.childGroups g0 _).length
            rw [addToGroup_length]
            exact hv k v h)
      constructor
      · rw [ihr]
        rw [entriesResolvedTo]
        dsimp only
        rw [if_neg (by rw [hl]; exact fun h => Option.noConfusion h)]
      · intro g hg
        have hg' : g < (addToGroup db.childGroups g0 (readItem (jObjOf it) (sufs j)).fst).length := by
          rw [addToGroup_length]
          exact hg
        rw [ihg g hg']
        rw [addToGroup_getD]
        rw [entriesResolvedTo]
        dsimp only
        by_cases he : g = g0
        · subst he
          rw [if_pos ⟨rfl, hv _ _ hl⟩, if_pos (by rw [hl])]
          simp [List.append_assoc]
        · rw [if_neg (by intro hh; exact he hh.1),
            if_neg (by rw [hl]; intro hh; exact he (Option.some.inj hh).symm)]

theorem removeHistoryItems_self (l : List Nat) : removeHistoryItems l l = [] := by
  rw [removeHistoryItems, List.filter_eq_nil_iff]
  intro a ha
  simp [ha]

theorem readItem_fst_attributes (item : JValue) (sufs : List String) :
    (readItem item sufs).fst.attributes
      = processFields (readItemPre item).fst.attributes (vList (jValue item "fields")) sufs := rfl

theorem readItem_fst_history (item : JValue) (sufs : List String) :
    (readItem item sufs).fst.history
      = removeHistoryItems (readItemPre item).fst.history (readItemPre item).fst.history := rfl

theorem readItemPre_hasKeyURL (item : JValue) :
    hasKey (readItemPre item).fst.attributes "URL" = true := by
  obtain ⟨m, hm⟩ := readItemPre_names item
  rw [hasKey_iff_mem, hm]
  exact List.mem_append_left _ (List.mem_append_left _ (by decide))

theorem readItemPre_url_of_login (item : JValue) (hlog : jContains item "login" = true) :
    (readItemPre item).fst.url
      = (processUris (entryAfterLogin item) 1 (vList (jValue (jValue item "login") "uris"))).url := by
  rw [readItemPre]
  simp only [hlog, if_true]
  cases hident : jContains item "identity" with
  | false => rfl
  | true =>
    simp only [if_true]
    show getAttr (setAttr _ "identity_address" _ false) "URL" = _
    rw [getAttr_setAttr_ne _ _ _ (by decide)]
    rfl

/-- C8: for every item, `readItem` sets creation time from `createdAt`,
last-modification time from `updatedAt`, and last-access time equal to the
last-modification time (epoch seconds read via `toULongLong`, UTC). -/
theorem c8_timestamps (item : JValue) (sufs : List String) :
    (readItem item sufs).fst.timeInfo.creationTime = vNat (jValue item "createdAt") ∧
    (readItem item sufs).fst.timeInfo.lastModificationTime = vNat (jValue item "updatedAt") ∧
    (readItem item sufs).fst.timeInfo.lastAccessTime = vNat (jValue item "updatedAt") ∧
    (readItem item sufs).fst.timeInfo.lastAccessTime
      = (readItem item sufs).fst.timeInfo.lastModificationTime :=
  ⟨rfl, rfl, rfl, rfl⟩

/-- C9: for every item, the entry returned by `readItem` has zero history
items: the final `removeHistoryItems(historyItems())` empties the list. -/
theorem c9_no_history (item : JValue) (sufs : List String) :
    (readItem item sufs).fst.history = [] := by
  rw [readItem_fst_history]
  exact removeHistoryItems_self _

/-- C3 evidence: an identity whose `postalCode` is "93103" yields an
`identity_address` attribute without the postal code, because the code
looks up the all-lowercase key `postalcode`. -/
theorem c3_postalcode_dropped :
    vStr (jValue (jValue c3item "identity") "postalCode") = "93103" ∧
    getAttr (readItem c3item []).fst.attributes "identity_address" = "A\nC, S \nU" :=
  ⟨rfl, rfl⟩

/-- C1 counterexample: with `uris = ["", "x"]` the primary URL is "x", not
`uris[0] = ""`: an empty first uri does not occupy the primary slot. -/
theorem c1_counterexample :
    (readItem c1item []).fst.url = "x" ∧
      ¬ (readItem c1item []).fst.url
          = uriStr ((vList (jValue (jValue c1item "login") "uris")).getD 0 .null) :=
  ⟨rfl, by decide⟩

/-- C1 (amended): when the first uri string is non-empty, the primary URL
is `uris[0]` and each subsequent `uris[k]` is stored as attribute
`KP2A_URL_<k>` (1-based overflow index), provided the random field-name
suffixes are fresh. -/
theorem c1_amended (item : JValue) (sufs : List String) (u0 : JValue) (rest : List JValue)
    (hlog : jContains item "login" = true)
    (hus : vList (jValue (jValue item "login") "uris") = u0 :: rest)
    (hne : ¬ uriStr u0 = "")
    (hsuf : suffixesOk item sufs = true) :
    (readItem item sufs).fst.url = uriStr u0 ∧
      ∀ k : Nat, 1 ≤ k → k - 1 < rest.length →
        getAttr (readItem item sufs).fst.attributes (kpName k)
          = uriStr (rest.getD (k - 1) .null) := by
  have hsuf' : goodSuffixes (readItemPre item).fst.attributes
      (vList (jValue item "fields")) sufs = true := hsuf
  have hattrs := readItemPre_login_attrs item u0 rest hlog hus hne
  have hAkey : hasKey ((entryAfterLogin item).setUrl (uriStr u0)).attributes "URL" = true := by
    show hasKey (setAttr _ "URL" _ _) _ = true
    exact hasKey_setAttr_self _ _ _ _
  have hAnames : ((entryAfterLogin item).setUrl (uriStr u0)).attributes.map (fun a => a.name)
      = defaultNames := by
    show (setAttr (entryAfterLogin item).attributes "URL" (uriStr u0) false).map _ = _
    rw [names_setAttr_of_hasKey _ _ _ _ (entryAfterLogin_hasKeyURL item), entryAfterLogin_names]
  have hAkp : ∀ k : Nat,
      hasKey ((entryAfterLogin item).setUrl (uriStr u0)).attributes (kpName k) = false := by
    intro k
    cases hh : hasKey ((entryAfterLogin item).setUrl (uriStr u0)).attributes (kpName k) with
    | false => rfl
    | true =>
      have := (hasKey_iff_mem _ _).mp hh
      rw [hAnames] at this
      exact ((kpName_not_mem_defaultNames k) this).elim
  constructor
  · show getAttr (processFields (readItemPre item).fst.attributes
      (vList (jValue item "fields")) sufs) "URL" = uriStr u0
    rw [processFields_url _ _ _ (readItemPre_hasKeyURL item)]
    rw [hattrs]
    rw [getAttr_append_left _ _ _ (by rw [hasKey_append, hAkey]; rfl)]
    rw [getAttr_append_left _ _ _ hAkey]
    show getAttr (setAttr _ "URL" _ _) _ = _
    exact getAttr_setAttr_same _ _ _ _
  · intro k hk1 hklt
    have hkovf : hasKey (overflowAttrs 1 rest) (kpName k) = true :=
      hasKey_overflowAttrs_true rest 1 k hk1 hklt
    have hkpre : hasKey (readItemPre item).fst.attributes (kpName k) = true := by
      rw [hattrs, hasKey_append, hasKey_append, hkovf]
      simp
    rw [readItem_fst_attributes, processFields_getAttr _ _ _ _ hsuf' hkpre]
    rw [hattrs]
    rw [getAttr_append_left _ _ _ (by rw [hasKey_append, hkovf]; simp)]
    rw [getAttr_append_right _ _ _ (hAkp k)]
    exact getAttr_overflowAttrs rest 1 k hk1 hklt

/-- C1 witness: three non-empty uris "a","b","c" give primary URL "a" and
overflow attributes KP2A_URL_1 = "b", KP2A_URL_2 = "c". -/
theorem c1_witness :
    (readItem c1witnessItem []).fst.url = "a" ∧
      getAttr (readItem c1witnessItem []).fst.attributes (kpName 1) = "b" ∧
      getAttr (readItem c1witnessItem []).fst.attributes (kpName 2) = "c" := by
  have h := c1_amended c1witnessItem [] (.obj [("uri", .str "a")])
    [.obj [("uri", .str "b")], .obj [("uri", .str "c")]] rfl rfl (by decide) (by decide)
  exact ⟨h.1.trans (by decide), (h.2 1 (by omega) (by decide)).trans (by decide),
    (h.2 2 (by omega) (by decide)).trans (by decide)⟩

/-- C2: with fresh random suffixes, attribute names on the produced entry
are unique, every attribute present before the `fields` loop survives
unchanged, and each of the `fields` adds exactly one new attribute (so
two fields sharing a name yield two distinct attributes). -/
theorem c2_unique_attributes (item : JValue) (sufs : List String)
    (hsuf : suffixesOk item sufs = true) :
    ((readItem item sufs).fst.attributes.map (fun a => a.name)).Nodup ∧
      ∃ extra, (readItem item sufs).fst.attributes
          = (readItemPre item).fst.attributes ++ extra ∧
        extra.length = (vList (jValue item "fields")).length := by
  have hsuf' : goodSuffixes (readItemPre item).fst.attributes
      (vList (jValue item "fields")) sufs = true := hsuf
  obtain ⟨extra, he, hl, hnd⟩ := processFields_spec _ _ _ hsuf'
  refine ⟨?_, extra, ?_, hl⟩
  · rw [readItem_fst_attributes, he]
    exact hnd (readItemPre_nodup item)
  · rw [readItem_fst_attributes, he]

/-- C2 witness: two fields both named "a" with suffix stream ["abcde"]
give an entry with distinct attributes for both fields. -/
theorem c2_witness : suffixesOk c2item ["abcde"] = true ∧
    (((readItem c2item ["abcde"]).fst.attributes.map (fun a => a.name)).Nodup ∧
      ∃ extra, (readItem c2item ["abcde"]).fst.attributes
          = (readItemPre c2item).fst.attributes ++ extra ∧
        extra.length = (vList (jValue c2item "fields")).length) :=
  ⟨by decide, c2_unique_attributes c2item ["abcde"] (by decide)⟩

/-- C10: with a `login` present, the primary URL is the first non-empty
uri string (leading empty uris do not occupy the primary slot; all-empty
gives an empty URL), and the uri loop appends exactly one `KP2A_URL_<k>`
attribute per uri strictly after the first non-empty one (none when every
uri is empty). -/
theorem c10_leading_empty_uris (item : JValue) (sufs : List String)
    (hlog : jContains item "login" = true) :
    (readItem item sufs).fst.url
        = ((uriStrings (vList (jValue (jValue item "login") "uris"))).dropWhile
            (fun s => s == "")).headD "" ∧
      (processUris (entryAfterLogin item) 1
          (vList (jValue (jValue item "login") "uris"))).attributes.map (fun a => a.name)
        = (entryAfterLogin item).attributes.map (fun a => a.name) ++
            (List.range' 1 (overflowCount ""
              (uriStrings (vList (jValue (jValue item "login") "uris"))))).map kpName := by
  constructor
  · show getAttr (processFields (readItemPre item).fst.attributes
      (vList (jValue item "fields")) sufs) "URL" = _
    rw [processFields_url _ _ _ (readItemPre_hasKeyURL item)]
    have hpre : getAttr (readItemPre item).fst.attributes "URL"
        = (readItemPre item).fst.url := rfl
    rw [hpre, readItemPre_url_of_login item hlog]
    rw [processUris_url _ _ _ (entryAfterLogin_hasKeyURL item)]
    rw [entryAfterLogin_url]
    rfl
  · rw [processUris_names _ _ _ (entryAfterLogin_hasKeyURL item)
      (fun k _ => entryAfterLogin_fresh item k)]
    rw [entryAfterLogin_url]

/-- C10 witness: uris ["", "", "a", "b"] give primary URL "a" and a single
overflow attribute name `KP2A_URL_1`. -/
theorem c10_witness :
    jContains c10item "login" = true ∧
    (readItem c10item []).fst.url = "a" ∧
      (processUris (entryAfterLogin c10item) 1
          (vList (jValue (jValue c10item "login") "uris"))).attributes.map (fun a => a.name)
        = (entryAfterLogin c10item).attributes.map (fun a => a.name) ++ [kpName 1] := by
  have h := c10_leading_empty_uris c10item [] rfl
  exact ⟨rfl, h.1.trans (by decide), h.2.trans (by decide)⟩

/-- C4: a parsed vault object lacking `folders` or `items` converts to a
database with only its root group (no entries, no child groups) and an
empty error string. -/
theorem c4_missing_keys_empty_db (d : Option JValue) (sufs : Nat → List String)
    (h : jContains (jsonObject d) "folders" = false ∨ jContains (jsonObject d) "items" = false) :
    convert (FileAccess.readable d) sufs
      = (some { rootEntries := [], childGroups := [] }, "") := by
  rw [convert, writeVaultToDatabase]
  rcases h with h | h <;> rw [h] <;> simp

/-- C4 witness: the empty JSON object lacks both keys. -/
theorem c4_witness :
    (jContains (jsonObject (some (.obj []))) "folders" = false ∨
      jContains (jsonObject (some (.obj []))) "items" = false) ∧
    convert (FileAccess.readable (some (.obj []))) (fun _ => [])
      = (some { rootEntries := [], childGroups := [] }, "") :=
  ⟨Or.inl rfl, c4_missing_keys_empty_db (some (.obj [])) (fun _ => []) (Or.inl rfl)⟩

/-- C5: the converter returns either a database or an error, never both:
a missing path gives the "File does not exist." error and no database, an
unopenable file gives "Cannot open file: <reason>" and no database, and a
database comes with an empty error string. -/
theorem c5_error_contract (sufs : Nat → List String) :
    ((convert FileAccess.missing sufs).fst = none ∧
      (convert FileAccess.missing sufs).snd = "File does not exist.") ∧
    (∀ r : String, (convert (FileAccess.unreadable r) sufs).fst = none ∧
      (convert (FileAccess.unreadable r) sufs).snd = "Cannot open file: " ++ r) ∧
    (∀ fs : FileAccess, (convert fs sufs).fst.isSome = true ↔ (convert fs sufs).snd = "") := by
  refine ⟨⟨rfl, rfl⟩, fun r => ⟨rfl, rfl⟩, fun fs => ?_⟩
  cases fs with
  | missing =>
    simp only [convert]
    constructor
    · intro h
      simp at h
    · intro h
      exact absurd h (by decide)
  | unreadable r =>
    simp only [convert]
    constructor
    · intro h
      simp at h
    · intro h
      have := congrArg String.data h
      rw [String.data_append] at this
      have h2 := congrArg List.length this
      simp at h2
  | readable d => simp [convert]

/-- C6: a vault with both keys produces exactly one entry per element of
`items` (counting entries attached anywhere) and exactly one non-root
group per element of `folders` — duplicate folder ids and malformed items
included. -/
theorem c6_counts (vault : JValue) (sufs : Nat → List String)
    (hf : jContains vault "folders" = true) (hi : jContains vault "items" = true) :
    (writeVaultToDatabase vault sufs).childGroups.length
        = (vList (jValue vault "folders")).length ∧
      totalEntries (writeVaultToDatabase vault sufs)
        = (vList (jValue vault "items")).length := by
  rw [writeVaultToDatabase]
  rw [if_pos (by rw [hf, hi]; rfl)]
  constructor
  · rw [attachAll_length]
    simp
  · rw [attachAll_totalEntries _ _ _ _ _
      (by intro k v h
          have := lookup_buildFolderMap _ _ _ h
          simpa using this)]
    have hz : totalEntries
        { rootEntries := [],
          childGroups := (vList (jValue vault "folders")).map
            (fun f => ({ name := vStr (jValue (jObjOf f) "name"), entries := [] } : GroupM)) }
        = 0 := by
      simp only [totalEntries, List.length_nil, List.map_map, Nat.zero_add]
      rw [List.sum_eq_zero]
      intro x hx
      obtain ⟨f, -, he⟩ := List.mem_map.mp hx
      simpa using he.symm
    rw [hz]
    omega

/-- C6 witness: two folders sharing an id and a malformed (non-object)
item still give two groups and two entries. -/
theorem c6_witness :
    jContains c6vault "folders" = true ∧ jContains c6vault "items" = true ∧
    (writeVaultToDatabase c6vault (fun _ => [])).childGroups.length = 2 ∧
    totalEntries (writeVaultToDatabase c6vault (fun _ => [])) = 2 := by
  have h := c6_counts c6vault (fun _ => []) rfl rfl
  exact ⟨rfl, rfl, h.1.trans (by decide), h.2.trans (by decide)⟩

/-- C7 counterexample: a folder without an id is registered under the
empty id, so an item without a `folderId` attaches to that folder's group
rather than the root group. -/
theorem c7_counterexample :
    (writeVaultToDatabase c7vault (fun _ => [])).rootEntries = [] ∧
      ((writeVaultToDatabase c7vault (fun _ => [])).childGroups.getD 0 ⟨"", []⟩).entries.length = 1 := by
  constructor
  · rfl
  · rfl

/-- C7 (amended): an item's entry attaches to the group the folder-id
table maps its folderId string to (absent folderId reads as the empty
string, which can itself be a mapped id; later folders overwrite earlier
ones sharing an id), and to the root group exactly when the table has no
such id. -/
theorem c7_amended (vault : JValue) (sufs : Nat → List String)
    (hf : jContains vault "folders" = true) (hi : jContains vault "items" = true) :
    (writeVaultToDatabase vault sufs).rootEntries
        = entriesResolvedTo (buildFolderMap (vList (jValue vault "folders"))) sufs none
            (vList (jValue vault "items")) 0 ∧
      ∀ g : Nat, g < (vList (jValue vault "folders")).length →
        ((writeVaultToDatabase vault sufs).childGroups.getD g ⟨"", []⟩).entries
          = entriesResolvedTo (buildFolderMap (vList (jValue vault "folders"))) sufs (some g)
              (vList (jValue vault "items")) 0 := by
  rw [writeVaultToDatabase]
  rw [if_pos (by rw [hf, hi]; rfl)]
  obtain ⟨hr, hg⟩ := attachAll_resolved (vList (jValue vault "items"))
    (buildFolderMap (vList (jValue vault "folders"))) sufs 0
    { rootEntries := [],
      childGroups := (vList (jValue vault "folders")).map
        (fun f => ({ name := vStr (jValue (jObjOf f) "name"), entries := [] } : GroupM)) }
    (by intro k v h
        have := lookup_buildFolderMap _ _ _ h
        simpa using this)
  constructor
  · rw [hr]
    rfl
  · intro g hgl
    rw [hg g (by simpa using hgl)]
    have hempty : (((vList (jValue vault "folders")).map
        (fun f => ({ name := vStr (jValue (jObjOf f) "name"), entries := [] } : GroupM))).getD g
          ⟨"", []⟩).entries = [] := by
      rw [List.getD_eq_getElem?_getD, List.getElem?_map]
      rw [List.getElem?_eq_getElem hgl]
      rfl
    rw [hempty]
    rfl

/-- C7 witness: two folders share id "f" (the second wins); an item with
folderId "f" lands in the second folder's group, one with unknown id "g"
lands at the root. -/
theorem c7_witness :
    jContains c7witnessVault "folders" = true ∧ jContains c7witnessVault "items" = true ∧
    (writeVaultToDatabase c7witnessVault (fun _ => [])).rootEntries
        = entriesResolvedTo (buildFolderMap (vList (jValue c7witnessVault "folders")))
            (fun _ => []) none (vList (jValue c7witnessVault "items")) 0 ∧
    ((writeVaultToDatabase c7witnessVault (fun _ => [])).childGroups.getD 1 ⟨"", []⟩).entries
        = entriesResolvedTo (buildFolderMap (vList (jValue c7witnessVault "folders")))
            (fun _ => []) (some 1) (vList (jValue c7witnessVault "items")) 0 := by
  have h := c7_amended c7witnessVault (fun _ => []) rfl rfl
  exact ⟨rfl, rfl, h.1, h.2 1 (by decide)⟩
